import Mathlib

/-!
Verification development for the `trs` trash utility (Rust sources in
`src/trash.rs`, `src/metadata.rs`, `src/cli.rs`, `src/main.rs`).

The Rust code is shallowly embedded: file and directory names are lists of
characters, the filesystem is a finite association map from absolute paths to
nodes, the gzip/tar byte pipeline of the external `flate2`/`tar` crates is
modelled symbolically (`FileBytes`), and the `serde_json` serialization of the
`TrashItem` record is modelled by an executable serializer/parser pair.
Each definition mirrors the corresponding Rust function; line numbers in the
doc comments refer to the Rust sources.
-/

namespace Trs

/-- Iteration core of `str::trim_end_matches`: strips the suffix `pat` as
long as it is present; every strip shortens the list, so `l.length` steps of
fuel are always enough (at fuel 0 the list is empty and nothing remains to
strip). -/
def trimEndIter (pat : List Char) : Nat → List Char → List Char
  | 0, l => l
  | fuel + 1, l =>
    if pat ≠ [] ∧ pat <:+ l then
      trimEndIter pat fuel (l.take (l.length - pat.length))
    else l

/-- Rust `str::trim_end_matches`: repeatedly removes the suffix `pat` from the
end of `l` (`trash.rs` uses it with `".tar.gz"` and `".gz"`). -/
def trimEndMatches (l pat : List Char) : List Char :=
  trimEndIter pat l.length l

/-- The suffix `".tar.gz"` (`trash.rs:24` etc.). -/
def tarGzSuf : List Char := ".tar.gz".data

/-- The suffix `".gz"` (`trash.rs:26` etc.). -/
def gzSuf : List Char := ".gz".data

/-- The hidden metadata file name `".metadata"` (`trash.rs:80`). -/
def mdName : List Char := ".metadata".data

/-- Splits a reversed character list at its first `'.'` (i.e. the last dot of
the unreversed name): returns `(extension-reversed, stem-reversed)`. -/
def revSplitDot : List Char → Option (List Char × List Char)
  | [] => none
  | c :: r =>
    if c = '.' then some ([], r)
    else
      match revSplitDot r with
      | some (e, s) => some (c :: e, s)
      | none => none

/-- Rust `Path::file_stem` on a single path component: the part before the
final `.`, the whole name when there is no dot, and the whole name when the
only dot is the leading one (hidden files such as `".metadata"`). -/
def rustFileStem (l : List Char) : List Char :=
  match revSplitDot l.reverse with
  | none => l
  | some (_, stemRev) => if stemRev = [] then l else stemRev.reverse

/-- Rust `Path::extension` on a single path component: the part after the
final `.` when one exists and is not the leading character. -/
def rustExtension (l : List Char) : Option (List Char) :=
  match revSplitDot l.reverse with
  | none => none
  | some (extRev, stemRev) => if stemRev = [] then none else some extRev.reverse

/-- Rust `Path::with_extension("tar.gz")` on the final path component: the
file stem with `".tar.gz"` attached (`trash.rs:107`, `trash.rs:154`). -/
def withExtTarGz (l : List Char) : List Char := rustFileStem l ++ tarGzSuf

/-- Rust `Path::file_name` for a canonical absolute path that does not end in
`/`: the final `/`-separated component. -/
def baseNameOf (p : List Char) : List Char :=
  (p.reverse.takeWhile (fun c => c ≠ '/')).reverse

/-- Parent directory of a canonical absolute path: everything before the last
`/` (Rust `Path::parent`, used in `trash.rs:405`). -/
def parentDirOf (p : List Char) : List Char :=
  ((p.reverse.dropWhile (fun c => c ≠ '/')).drop 1).reverse

/-- Decimal digits of `n`, most significant first (specification function for
`Nat.repr`). -/
def myDec (n : Nat) : List Char :=
  if n < 10 then [Nat.digitChar n]
  else myDec (n / 10) ++ [Nat.digitChar (n % 10)]
termination_by n
decreasing_by
  exact Nat.div_lt_self (by omega) (by omega)

/-- The decimal character list of `n` produced by `format!("{}", n)`. -/
def natChars (n : Nat) : List Char := (Nat.repr n).data

/-- Metadata mapping in converted form: trash name to (original path, is_dir),
mirroring `HashMap<String, (String, bool)>` as an association list. -/
abbrev Md : Type := List (List Char × (List Char × Bool))

/-- Raw metadata as stored on disk: trash name to raw string value,
mirroring `HashMap<String, String>`. -/
abbrev RawMd : Type := List (List Char × List Char)

/-- trash.rs:24-30: the candidate with a trailing `".tar.gz"` or `".gz"`
stripped (`trim_end_matches` strips the suffix repeatedly). -/
def archStem (fileName : List Char) : List Char :=
  if tarGzSuf <:+ fileName then trimEndMatches fileName tarGzSuf
  else if gzSuf <:+ fileName then trimEndMatches fileName gzSuf
  else fileName

/-- trash.rs:48-55: the numbered variant `stem(counter)[.ext]` built from the
suffix-stripped candidate. -/
def numberedName (fileStem : List Char) (counter : Nat) : List Char :=
  match rustExtension fileStem with
  | some ext =>
    rustFileStem fileStem ++ '(' :: natChars counter ++ ')' ::
      (if ext = [] then [] else '.' :: ext)
  | none => fileStem ++ '(' :: natChars counter ++ [')']

/-- trash.rs:48-62: a numbered variant with the stripped compound suffix
(`".tar.gz"`/`".gz"`) of the original candidate reattached. -/
def variantName (fileName : List Char) (counter : Nat) : List Char :=
  let base := numberedName (archStem fileName) counter
  if tarGzSuf <:+ fileName then base ++ tarGzSuf
  else if gzSuf <:+ fileName then base ++ gzSuf
  else base

/-- trash.rs:37-40: the loop condition — the name exists on disk under the
trash root, or some metadata record under that name has the same type bit or
a different original path. -/
def collidesB (disk : List (List Char)) (md : Md) (op : List Char)
    (isDir : Bool) (nm : List Char) : Bool :=
  decide (nm ∈ disk) ||
    md.any fun e =>
      decide (e.1 = nm) && (decide (e.2.2 = isDir) || decide (¬ e.2.1 = op))

/-- trash.rs:42-44: the break condition — a metadata record under this exact
name with the same type bit and the same original path. -/
def sameItemB (md : Md) (op : List Char) (isDir : Bool)
    (nm : List Char) : Bool :=
  md.any fun e =>
    decide (e.1 = nm) && (decide (e.2.2 = isDir) && decide (e.2.1 = op))

/-- trash.rs:37-65: the `while` loop of `generate_unique_name`, with explicit
fuel.  Returns `none` when the fuel runs out; `uniqueLoop_fuel_sufficient`
shows the fuel used by `generateUniqueName` never does. -/
def uniqueLoop (disk : List (List Char)) (md : Md) (op : List Char)
    (isDir : Bool) (fileName : List Char) :
    Nat → List Char → Nat → Option (List Char)
  | 0, _, _ => none
  | fuel + 1, nm, counter =>
    if collidesB disk md op isDir nm then
      if sameItemB md op isDir nm then some nm
      else uniqueLoop disk md op isDir fileName fuel
        (variantName fileName counter) (counter + 1)
    else some nm

/-- trash.rs:17-68: `generate_unique_name`.  The loop starts from the
candidate with counter 1; `disk.length + md.length + 2` steps always
suffice. -/
def generateUniqueName (disk : List (List Char)) (md : Md) (op : List Char)
    (isDir : Bool) (fileName : List Char) : List Char :=
  (uniqueLoop disk md op isDir fileName (disk.length + md.length + 2)
    fileName 1).getD fileName

/-- The sequence of names proposed by the loop: the candidate itself, then
the numbered variants. -/
def nameSeq (fileName : List Char) : Nat → List Char
  | 0 => fileName
  | k + 1 => variantName fileName (k + 1)

/-- A proposed name is accepted by the loop when it does not collide, or when
its record marks a re-trash of the same item. -/
def acceptedB (disk : List (List Char)) (md : Md) (op : List Char)
    (isDir : Bool) (nm : List Char) : Bool :=
  !collidesB disk md op isDir nm || sameItemB md op isDir nm

/-- `HashMap::get`: the value at key `k`, if present. -/
def lookupA {β : Type} (k : List Char) :
    List (List Char × β) → Option β
  | [] => none
  | e :: r => if e.1 = k then some e.2 else lookupA k r

/-- `HashMap::insert`: replaces the binding at `k` or appends a new one. -/
def insertA {β : Type} (k : List Char) (v : β) :
    List (List Char × β) → List (List Char × β)
  | [] => [(k, v)]
  | e :: r => if e.1 = k then (k, v) :: r else e :: insertA k v r

/-- `HashMap::remove`: removes the binding at `k`, if present. -/
def removeA {β : Type} (k : List Char) :
    List (List Char × β) → List (List Char × β)
  | [] => []
  | e :: r => if e.1 = k then r else e :: removeA k r

/-- JSON string escaping as performed by `serde_json` on `"` and `\`
(control-character escapes are not modelled; they only affect paths
containing control characters). -/
def escapeJson : List Char → List Char
  | [] => []
  | c :: r =>
    if c = '"' ∨ c = '\\' then '\\' :: c :: escapeJson r
    else c :: escapeJson r

/-- The literal prefix `{"path":"` tested by trash.rs:241. -/
def jsonTag : List Char := "\x7b\"path\":\"".data

/-- The literal fragment `","is_dir":` between the two fields. -/
def dirTag : List Char := "\",\"is_dir\":".data

/-- Modelled from the spec: `serde_json::to_string(&TrashItem { path, is_dir })`
— the canonical serialization `{"path":"<escaped>","is_dir":<bool>}`
(`metadata.rs:10-14`, trash.rs:262-266). -/
def serializeTrashItem (p : List Char) (d : Bool) : List Char :=
  jsonTag ++ escapeJson p ++ dirTag ++
    (if d then "true".data else "false".data) ++ ['\x7d']

/-- Drops the literal prefix `pre` from `l`, or fails. -/
def dropPre : List Char → List Char → Option (List Char)
  | [], l => some l
  | _ :: _, [] => none
  | p :: pr, c :: r => if p = c then dropPre pr r else none

/-- Parses a JSON string body (after the opening quote) up to its closing
quote, undoing backslash escapes; returns the content and the remainder. -/
def parseStringBody : List Char → Option (List Char × List Char)
  | [] => none
  | '\\' :: r =>
    match r with
    | [] => none
    | c :: r' =>
      match parseStringBody r' with
      | some (s, rest) => some (c :: s, rest)
      | none => none
  | '"' :: r => some ([], r)
  | c :: r =>
    match parseStringBody r with
    | some (s, rest) => some (c :: s, rest)
    | none => none

/-- Modelled from the spec: `serde_json::from_str::<TrashItem>` restricted to
the canonical serialization produced by `serializeTrashItem`
(trash.rs:243). -/
def parseTrashItem (v : List Char) : Option (List Char × Bool) :=
  match dropPre jsonTag v with
  | none => none
  | some r1 =>
    match parseStringBody r1 with
    | none => none
    | some (p, r2) =>
      match dropPre ",\"is_dir\":".data r2 with
      | none => none
      | some r3 =>
        if r3 = "true\x7d".data then some (p, true)
        else if r3 = "false\x7d".data then some (p, false)
        else none

/-- trash.rs:241: `value.starts_with("{\"path\":\"")`. -/
def startsWithTag (v : List Char) : Bool := decide (jsonTag <+: v)

/-- trash.rs:239-251: the conversion applied to a single raw metadata value —
structured records are parsed, anything else is kept as a bare path whose
type bit comes from the filesystem probe `exists && is_dir`
(`exB`/`dirB` model `Path::exists` / `Path::is_dir`). -/
def convertValue (parse : List Char → Option (List Char × Bool))
    (exB dirB : List Char → Bool) (v : List Char) : List Char × Bool :=
  if startsWithTag v then
    match parse v with
    | some pd => pd
    | none => (v, exB v && dirB v)
  else (v, exB v && dirB v)

/-- trash.rs:236-254: `convert_metadata_if_needed` — iterates the raw mapping
and inserts one converted record per raw entry. -/
def convertMetadataIfNeeded (parse : List Char → Option (List Char × Bool))
    (exB dirB : List Char → Bool) (old : RawMd) : Md :=
  old.foldl
    (fun acc kv =>
      if startsWithTag kv.2 then
        match parse kv.2 with
        | some pd => insertA kv.1 pd acc
        | none => insertA kv.1 (kv.2, exB kv.2 && dirB kv.2) acc
      else insertA kv.1 (kv.2, exB kv.2 && dirB kv.2) acc)
    ([] : Md)

/-- trash.rs:257-271: `save_metadata_with_type` — the raw mapping written to
disk, one canonical serialization per record (the `unwrap_or_else` fallback
in trash.rs:266 is unreachable: serialization of a string/bool record cannot
fail). -/
def saveMdWithType (md : Md) : RawMd :=
  md.map fun kv => (kv.1, serializeTrashItem kv.2.1 kv.2.2)

/-! ### Filesystem model

A file's on-disk bytes are modelled symbolically: either opaque raw bytes, a
gzip single stream (legacy `.gz` trash entries), or a gzipped tar container
holding a list of entries `(relative path, file bytes or directory marker)`.
The gzip/tar codecs of `flate2`/`tar` are external to this repository; the
model records exactly the information the repository's calls put in and take
out of them, with compression assumed lossless. -/

inductive FileBytes where
  | raw (bs : List Nat)
  | gzipped (bs : List Nat)
  | targz (es : List (List Char × Option FileBytes))

/-- A filesystem node: a regular file with bytes, or a directory with a
listing of named children. -/
inductive FsNode where
  | file (bs : FileBytes)
  | dir (children : List (List Char × FsNode))

/-- The filesystem state visible to the trash engine: the world outside the
trash root (absolute path to node, canonical paths, no trailing `/`), the
trash root directory flag, the trash root's entries (the `.metadata` file is
kept apart in `mdFile`, holding the parsed raw mapping), and the current
working directory used by restore's fallback. -/
structure FsState where
  outside : List (List Char × FsNode)
  rootExists : Bool
  entries : List (List Char × FsNode)
  mdFile : Option RawMd
  cwd : List Char

/-- Error kinds surfaced by the engine (`io::ErrorKind`). -/
inductive TrsErr where
  | notFound
  | ioError
deriving DecidableEq

/-- Result of one engine operation: the filesystem state at return (also on
error, since `?` aborts with all writes so far in place) and the outcome. -/
structure StepRes (α : Type) where
  st : FsState
  out : Except TrsErr α

/-- Successful outcomes of `move_to_trash`, carrying the final on-disk trash
name stored in the metadata. -/
inductive MoveMsg where
  | movedFile (trashName : List Char)
  | movedEmptyDir (trashName : List Char)
  | movedDirArchive (trashName : List Char)
deriving DecidableEq

/-- Names present under the trash root as seen by `Path::exists`
(trash.rs:37) and `read_dir`: the entries plus the `.metadata` file. -/
def diskNames (s : FsState) : List (List Char) :=
  s.entries.map Prod.fst ++ (if s.mdFile.isSome then [mdName] else [])

/-- `Path::new(v).exists()` for an original path (probed during legacy
metadata migration, trash.rs:249). -/
def probeExistsB (s : FsState) (p : List Char) : Bool :=
  (lookupA p s.outside).isSome

/-- `Path::new(v).is_dir()` for an original path (trash.rs:249). -/
def probeIsDirB (s : FsState) (p : List Char) : Bool :=
  match lookupA p s.outside with
  | some (FsNode.dir _) => true
  | _ => false

/-- `load_metadata` (metadata.rs:17-24): absent file yields an empty mapping;
the stored mapping is kept in parsed form in the model, so the lenient-parse
fallback of metadata.rs:20 has nothing to fail on. -/
def loadMdRaw (s : FsState) : RawMd := s.mdFile.getD []

/-- Load-and-migrate as performed at the start of each operation
(trash.rs:83-84 etc.): `convert_metadata_if_needed` with the `serde_json`
parse and the filesystem probe of the current state. -/
def convertMd (s : FsState) (raw : RawMd) : Md :=
  convertMetadataIfNeeded parseTrashItem (probeExistsB s) (probeIsDirB s) raw

/-- trash.rs:171-200 (`add_dir_to_tar` plus the `append_dir` of the
directory itself at trash.rs:167 done by the caller): the tar entries added
for a directory listing, in `read_dir` order; `pre` is the path of the
directory relative to the archived root's parent. -/
def walkTar (pre : List Char) :
    List (List Char × FsNode) → List (List Char × Option FileBytes)
  | [] => []
  | (nm, FsNode.file bs) :: rest => (pre ++ '/' :: nm, some bs) :: walkTar pre rest
  | (nm, FsNode.dir cs) :: rest =>
    (pre ++ '/' :: nm, none) :: (walkTar (pre ++ '/' :: nm) cs ++ walkTar pre rest)

/-- trash.rs:71-233: `move_to_trash`.  The trash root is created first; a
missing source path makes `fs::canonicalize` fail with `NotFound`, which the
`?` operator propagates as a hard error (trash.rs:76).  Sources are assumed
already canonical, so `canonicalize` is the identity on existing paths. -/
def moveToTrash (file : List Char) (s0 : FsState) : StepRes MoveMsg :=
  let s1 : FsState := { s0 with rootExists := true }
  match lookupA file s1.outside with
  | none => ⟨s1, .error .notFound⟩
  | some node =>
    let originalPath := file
    let fileName := baseNameOf file
    let md := convertMd s1 (loadMdRaw s1)
    let isDirectory : Bool := match node with
      | FsNode.dir _ => true
      | _ => false
    let uniqueName :=
      generateUniqueName (diskNames s1) md originalPath isDirectory fileName
    match node with
    | FsNode.file bs =>
      let tgzName :=
        if tarGzSuf <:+ uniqueName then uniqueName else withExtTarGz uniqueName
      match lookupA tgzName s1.entries with
      | some (FsNode.dir _) => ⟨s1, .error .ioError⟩
      | _ =>
        let archive := FileBytes.targz [(fileName, some bs)]
        let s2 := { s1 with
          entries := insertA tgzName (FsNode.file archive) s1.entries }
        let s3 := { s2 with outside := removeA file s2.outside }
        let md2 := insertA tgzName (originalPath, false) md
        ⟨{ s3 with mdFile := some (saveMdWithType md2) },
          .ok (.movedFile tgzName)⟩
    | FsNode.dir children =>
      if children.isEmpty then
        let s2 := { s1 with
          entries := insertA uniqueName (FsNode.dir children) s1.entries,
          outside := removeA file s1.outside }
        let md2 := insertA uniqueName (originalPath, true) md
        ⟨{ s2 with mdFile := some (saveMdWithType md2) },
          .ok (.movedEmptyDir uniqueName)⟩
      else
        let tgzName := withExtTarGz uniqueName
        match lookupA tgzName s1.entries with
        | some (FsNode.dir _) => ⟨s1, .error .ioError⟩
        | _ =>
          let archive :=
            FileBytes.targz ((fileName, none) :: walkTar fileName children)
          let s2 := { s1 with
            entries := insertA tgzName (FsNode.file archive) s1.entries }
          let s3 := { s2 with outside := removeA file s2.outside }
          let md2 := insertA tgzName (originalPath, true) md
          ⟨{ s3 with mdFile := some (saveMdWithType md2) },
            .ok (.movedDirArchive tgzName)⟩

/-- trash.rs:443-446 and trash.rs:462-466: remove the trash entry, drop the
metadata record, persist the metadata. -/
def finishRestore (file : List Char) (s : FsState) (md : Md) : StepRes Unit :=
  ⟨{ s with entries := removeA file s.entries,
            mdFile := some (saveMdWithType (removeA file md)) }, .ok ()⟩

/-- Unpacking one tar entry at an exact destination path
(`entry.unpack(original_file)`, trash.rs:415). -/
def unpackEntryTo (dest : List Char) (e : List Char × Option FileBytes)
    (outside : List (List Char × FsNode)) : List (List Char × FsNode) :=
  match e.2 with
  | some b => insertA dest (FsNode.file b) outside
  | none => insertA dest (FsNode.dir []) outside

/-- Unpacking a whole archive into a parent directory
(`archive.unpack(parent)`, trash.rs:406): each file entry lands at
`parent/relative-path`.  Directory entries only create intermediate
directories, which the flat path map does not track. -/
def unpackAll (parent : List Char) (es : List (List Char × Option FileBytes))
    (outside : List (List Char × FsNode)) : List (List Char × FsNode) :=
  es.foldl
    (fun o e =>
      match e.2 with
      | some b => insertA (parent ++ '/' :: e.1) (FsNode.file b) o
      | none => o)
    outside

/-- trash.rs:350-469: `restore_from_trash`.  Parent-directory creation
(trash.rs:381-383) is a no-op in the flat path map. -/
def restoreFromTrash (file : List Char) (s0 : FsState) : StepRes Unit :=
  let md := convertMd s0 (loadMdRaw s0)
  let oli : List Char × Bool :=
    match lookupA file md with
    | some pd => pd
    | none =>
      (s0.cwd ++ '/' :: trimEndMatches (trimEndMatches file tarGzSuf) gzSuf,
        match lookupA file s0.entries with
        | some (FsNode.dir _) => true
        | _ => false)
  let originalLocation := oli.1
  let isDir := oli.2
  match lookupA file s0.entries with
  | some (FsNode.file bs) =>
    if tarGzSuf <:+ file then
      match bs with
      | FileBytes.targz es =>
        if isDir then
          let o2 := unpackAll (parentDirOf originalLocation) es s0.outside
          finishRestore file { s0 with outside := o2 } md
        else
          match es with
          | [] => finishRestore file s0 md
          | e :: _ =>
            finishRestore file
              { s0 with outside := unpackEntryTo originalLocation e s0.outside }
              md
      | _ => ⟨s0, .error .ioError⟩
    else if gzSuf <:+ file then
      match bs with
      | FileBytes.gzipped content =>
        let o2 := insertA originalLocation (FsNode.file (FileBytes.raw content)) s0.outside
        finishRestore file { s0 with outside := o2 } md
      | _ => ⟨s0, .error .ioError⟩
    else
      finishRestore file
        { s0 with outside := insertA originalLocation (FsNode.file bs) s0.outside }
        md
  | some (FsNode.dir cs) =>
    if isDir then
      ⟨{ s0 with
          entries := removeA file s0.entries,
          outside := insertA originalLocation (FsNode.dir cs) s0.outside,
          mdFile := some (saveMdWithType (removeA file md)) }, .ok ()⟩
    else ⟨s0, .error .notFound⟩
  | none => ⟨s0, .error .notFound⟩

/-- trash.rs:319-344 (`get_entry_display_info`): the multi-key metadata probe
over suffix-normalized variants of the entry name. -/
def mdProbe (md : Md) (entry : List Char) : Option (List Char × Bool) :=
  match lookupA entry md with
  | some pd => some pd
  | none =>
    match lookupA (trimEndMatches entry tarGzSuf) md with
    | some pd => some pd
    | none =>
      match lookupA (trimEndMatches entry gzSuf) md with
      | some pd => some pd
      | none =>
        match lookupA (trimEndMatches entry tarGzSuf ++ tarGzSuf) md with
        | some pd => some pd
        | none => lookupA (trimEndMatches entry gzSuf ++ gzSuf) md

/-- trash.rs:314-347: display name and original location for one listing
row. -/
def displayRow (s : FsState) (md : Md) (entry : List Char) :
    List Char × List Char :=
  let pathIsDir : Bool :=
    match lookupA entry s.entries with
    | some (FsNode.dir _) => true
    | _ => false
  let isDir : Bool :=
    match mdProbe md entry with
    | some pd => pd.2
    | none => pathIsDir
  let stripped := trimEndMatches (trimEndMatches entry tarGzSuf) gzSuf
  let nm := if isDir then stripped ++ ['/'] else stripped
  let loc :=
    match mdProbe md entry with
    | some pd => pd.1
    | none => "Unknown".data
  (nm, loc)

/-- trash.rs:274-311: `show_trash_contents`.  When the trash root exists the
operation only reads (listing rows are returned); when it is missing,
`fs::create_dir_all` creates it (trash.rs:300). -/
def showTrashContents (s : FsState) : FsState × List (List Char × List Char) :=
  let md := convertMd s (loadMdRaw s)
  if s.rootExists then
    let names := (diskNames s).filter (fun n => ¬ n = mdName)
    (s, names.map (displayRow s md))
  else
    ({ s with rootExists := true }, [])

/-- One deletion step of the `empty_trash` sweep (trash.rs:496-506): removing
the named directory entry — the `.metadata` file when the name matches it,
an ordinary entry otherwise. -/
def removeDiskEntry (s : FsState) (n : List Char) : FsState :=
  if n = mdName then { s with mdFile := none }
  else { s with entries := removeA n s.entries }

/-- trash.rs:472-516: `empty_trash` — when the trash root exists, every
`read_dir` entry (the `.metadata` file included) is removed one at a time;
a missing root only prints a message. -/
def emptyTrash (s : FsState) : FsState :=
  if s.rootExists then (diskNames s).foldl removeDiskEntry s else s

/-- cli.rs:24-28: the `move` subcommand loop — `move_to_trash(file, ..)?`
for each path in order, so the first error aborts the batch. -/
def runMoveBatch (files : List (List Char)) (s : FsState) : StepRes Unit :=
  match files with
  | [] => ⟨s, .ok ()⟩
  | f :: rest =>
    let r := moveToTrash f s
    match r.out with
    | .error e => ⟨r.st, .error e⟩
    | .ok _ => runMoveBatch rest r.st

/-- The collision rule as the specification words it: an entry with the
candidate name exists on disk under the trash root, or a metadata record
exists under that name whose `(is_directory, original_path)` pair differs
from the pair being inserted.  Stated for comparison against the code's
`collidesB`/`sameItemB`. -/
def specCollidesB (disk : List (List Char)) (md : Md) (op : List Char)
    (isDir : Bool) (nm : List Char) : Bool :=
  decide (nm ∈ disk) ||
    md.any fun e =>
      decide (e.1 = nm) && decide (¬ (e.2.2 = isDir ∧ e.2.1 = op))

/-- The decision the loop of trash.rs:37-45 actually applies before moving
past a candidate name: the collision test fires and the same-item break does
not. -/
def rejectsB (disk : List (List Char)) (md : Md) (op : List Char)
    (isDir : Bool) (nm : List Char) : Bool :=
  collidesB disk md op isDir nm && ! sameItemB md op isDir nm

/-! ### Operation trace of `move_to_trash` (for the ordering invariant)

`move_to_trash` issues its filesystem writes in a fixed order per branch;
the list below records that order straight from the source, and a two-bit
abstract view tracks whether the source item and the completed destination
artifact exist.  Since every early `?`-return truncates the sequence, the
states reachable in any execution (including failing ones) are exactly the
states after a prefix of the full trace. -/

inductive FsOp where
  | createDest
  | appendEntry
  | finishDest
  | renameToDest
  | removeSource
  | persistMetadata
deriving DecidableEq

/-- trash.rs:177-195: one `append_path_with_name`/`append_dir` per descendant
file and directory, in `read_dir` order, recursing into subdirectories. -/
def tarAppendOps : List (List Char × FsNode) → List FsOp
  | [] => []
  | (_, FsNode.file _) :: rest => .appendEntry :: tarAppendOps rest
  | (_, FsNode.dir cs) :: rest =>
    .appendEntry :: (tarAppendOps cs ++ tarAppendOps rest)

/-- The three classifications of the moved item (trash.rs:101, 141, 152). -/
inductive MoveKind where
  | regularFile
  | emptyDir
  | nonEmptyDir (children : List (List Char × FsNode))

/-- The write sequence of each `move_to_trash` branch:
file — create archive (113), append (120), finish (123), remove original
(127), save metadata (231); empty directory — rename (146), save metadata;
non-empty directory — create (157), append the directory itself (167),
recursive appends (200), finish (205), remove original (210), save
metadata. -/
def movePlan : MoveKind → List FsOp
  | .regularFile =>
    [.createDest, .appendEntry, .finishDest, .removeSource, .persistMetadata]
  | .emptyDir => [.renameToDest, .persistMetadata]
  | .nonEmptyDir cs =>
    .createDest :: .appendEntry ::
      (tarAppendOps cs ++ [.finishDest, .removeSource, .persistMetadata])

/-- Abstract view during one move: does the item still exist at its source,
and has the destination artifact been fully written. -/
structure MoveView where
  sourcePresent : Bool
  destComplete : Bool
deriving DecidableEq

/-- Effect of each write on the abstract view.  `createDest` and
`appendEntry` build a partial artifact only; `finishDest` completes it;
`renameToDest` atomically moves the item; `removeSource` deletes the
original. -/
def stepView (v : MoveView) : FsOp → MoveView
  | .createDest => v
  | .appendEntry => v
  | .finishDest => { v with destComplete := true }
  | .renameToDest => ⟨false, true⟩
  | .removeSource => { v with sourcePresent := false }
  | .persistMetadata => v

/-- Two regular files sharing the base name `note.txt` at different original
paths, plus an existing empty trash root. -/
def twoNotesState : FsState :=
  { outside := [("/a/note.txt".data, FsNode.file (FileBytes.raw [1])),
                ("/b/note.txt".data, FsNode.file (FileBytes.raw [2]))],
    rootExists := true, entries := [], mdFile := none, cwd := "/w".data }

/-- A world containing only `/b/real.txt`; `/a/gone.txt` does not exist. -/
def oneRealState : FsState :=
  { outside := [("/b/real.txt".data, FsNode.file (FileBytes.raw [7]))],
    rootExists := true, entries := [], mdFile := none, cwd := "/w".data }

/-- A state whose trash root does not exist. -/
def noRootState : FsState :=
  { outside := [], rootExists := false, entries := [], mdFile := none,
    cwd := "/w".data }

/-- The state `move_to_trash` leaves behind after archiving a regular file:
trash root created, the archive inserted under the final trash name, the
original removed, and the metadata record persisted. -/
def movedState (s : FsState) (p tgz : List Char) (b : FileBytes)
    (md : Md) : FsState where
  outside := removeA p s.outside
  rootExists := true
  entries := insertA tgz
    (FsNode.file (FileBytes.targz [(baseNameOf p, some b)])) s.entries
  mdFile := some (saveMdWithType (insertA tgz (p, false) md))
  cwd := s.cwd

/-! ### Lemmas and theorems -/

theorem myDec_lt (n : Nat) (h : n < 10) : myDec n = [Nat.digitChar n] := by
  rw [myDec, if_pos h]

theorem myDec_ge (n : Nat) (h : ¬ n < 10) :
    myDec n = myDec (n / 10) ++ [Nat.digitChar (n % 10)] := by
  rw [myDec, if_neg h]

theorem toDigitsCore_eq_myDec (fuel : Nat) :
    ∀ n acc, n < fuel →
      Nat.toDigitsCore 10 fuel n acc = myDec n ++ acc := by
  induction fuel with
  | zero => intro n acc h; omega
  | succ fuel ih =>
    intro n acc h
    rw [Nat.toDigitsCore]
    by_cases h10 : n / 10 = 0
    · have hlt : n < 10 := by omega
      rw [if_pos h10, myDec_lt n hlt, Nat.mod_eq_of_lt hlt]
      simp
    · have hge : 10 ≤ n := by
        by_contra hc
        exact h10 (Nat.div_eq_of_lt (by omega))
      have hdlt : n / 10 < n := Nat.div_lt_self (by omega) (by omega)
      have hdiv : n / 10 < fuel := by omega
      rw [if_neg h10, ih (n / 10) _ hdiv, myDec_ge n (by omega)]
      simp

theorem natChars_eq_myDec (n : Nat) : natChars n = myDec n := by
  have : natChars n = Nat.toDigitsCore 10 (n + 1) n [] := rfl
  rw [this, toDigitsCore_eq_myDec (n + 1) n [] (by omega)]
  simp

theorem myDec_ne_nil (n : Nat) : myDec n ≠ [] := by
  rw [myDec]
  split
  · simp
  · simp

theorem digitChar_inj_lt :
    ∀ m, m < 10 → ∀ n, n < 10 → Nat.digitChar m = Nat.digitChar n → m = n := by
  decide

theorem myDec_inj : ∀ m n : Nat, myDec m = myDec n → m = n := by
  intro m
  induction m using Nat.strong_induction_on with
  | _ m ih =>
    intro n h
    by_cases hm : m < 10
    · by_cases hn : n < 10
      · rw [myDec_lt m hm, myDec_lt n hn] at h
        exact digitChar_inj_lt m hm n hn (by simpa using h)
      · rw [myDec_lt m hm, myDec_ge n hn] at h
        have hlen := congrArg List.length h
        simp only [List.length_append, List.length_cons, List.length_nil] at hlen
        have hpos : 0 < (myDec (n / 10)).length :=
          List.length_pos.mpr (myDec_ne_nil _)
        omega
    · by_cases hn : n < 10
      · rw [myDec_ge m hm, myDec_lt n hn] at h
        have hlen := congrArg List.length h
        simp only [List.length_append, List.length_cons, List.length_nil] at hlen
        have hpos : 0 < (myDec (m / 10)).length :=
          List.length_pos.mpr (myDec_ne_nil _)
        omega
      · rw [myDec_ge m hm, myDec_ge n hn] at h
        have hpair := List.append_inj' h (by simp)
        have h1 : myDec (m / 10) = myDec (n / 10) := hpair.1
        have h2 : Nat.digitChar (m % 10) = Nat.digitChar (n % 10) := by
          have := hpair.2; simpa using this
        have hdvd : m / 10 = n / 10 :=
          ih (m / 10) (Nat.div_lt_self (by omega) (by omega)) (n / 10) h1
        have hmod : m % 10 = n % 10 :=
          digitChar_inj_lt (m % 10) (Nat.mod_lt _ (by omega)) (n % 10)
            (Nat.mod_lt _ (by omega)) h2
        omega

theorem natChars_inj {m n : Nat} (h : natChars m = natChars n) : m = n := by
  rw [natChars_eq_myDec, natChars_eq_myDec] at h
  exact myDec_inj m n h

theorem variantName_inj (fileName : List Char) {m n : Nat}
    (h : variantName fileName m = variantName fileName n) : m = n := by
  unfold variantName at h
  have hbase : numberedName (archStem fileName) m
      = numberedName (archStem fileName) n := by
    by_cases h1 : tarGzSuf <:+ fileName
    · simp only [h1, if_pos] at h
      exact List.append_cancel_right h
    · by_cases h2 : gzSuf <:+ fileName
      · simp only [h1, h2, if_neg, if_pos, not_false_iff] at h
        exact List.append_cancel_right h
      · simpa [h1, h2] using h
  unfold numberedName at hbase
  cases hext : rustExtension (archStem fileName) with
  | some ext =>
    rw [hext] at hbase
    have hbase2 : (rustFileStem (archStem fileName) ++ '(' :: natChars m) ++
        ')' :: (if ext = [] then [] else '.' :: ext)
        = (rustFileStem (archStem fileName) ++ '(' :: natChars n) ++
        ')' :: (if ext = [] then [] else '.' :: ext) := hbase
    have h3 := List.append_cancel_left (List.append_cancel_right hbase2)
    exact natChars_inj (by simpa using h3)
  | none =>
    rw [hext] at hbase
    have hbase2 : (archStem fileName ++ '(' :: natChars m) ++ [')']
        = (archStem fileName ++ '(' :: natChars n) ++ [')'] := hbase
    have h3 := List.append_cancel_left (List.append_cancel_right hbase2)
    exact natChars_inj (by simpa using h3)

theorem collidesB_mem {disk : List (List Char)} {md : Md} {op : List Char}
    {isDir : Bool} {nm : List Char}
    (h : collidesB disk md op isDir nm = true) :
    nm ∈ disk ∨ nm ∈ md.map Prod.fst := by
  unfold collidesB at h
  rcases Bool.or_eq_true_iff.mp h with h1 | h2
  · exact Or.inl (of_decide_eq_true h1)
  · rcases List.any_eq_true.mp h2 with ⟨e, hmem, he⟩
    rcases Bool.and_eq_true_iff.mp he with ⟨hk, _⟩
    right
    rw [← of_decide_eq_true hk]
    exact List.mem_map_of_mem Prod.fst hmem

theorem exists_accepted (disk : List (List Char)) (md : Md) (op : List Char)
    (isDir : Bool) (fileName : List Char) :
    ∃ k, k ≤ disk.length + md.length + 1 ∧
      acceptedB disk md op isDir (nameSeq fileName k) = true := by
  by_contra hno
  push_neg at hno
  set N := disk.length + md.length with hN
  set bad : List (List Char) := disk ++ md.map Prod.fst with hbad
  have hmem : ∀ i : Fin (N + 1), variantName fileName (i.1 + 1) ∈ bad := by
    intro i
    have hle : i.1 + 1 ≤ N + 1 := by omega
    have hacc := hno (i.1 + 1) hle
    have hcol : collidesB disk md op isDir (nameSeq fileName (i.1 + 1))
        = true := by
      unfold acceptedB at hacc
      rcases hcb : collidesB disk md op isDir (nameSeq fileName (i.1 + 1)) with _ | _
      · rw [hcb] at hacc; simp at hacc
      · rfl
    have := collidesB_mem hcol
    rw [hbad]
    rcases this with h1 | h2
    · exact List.mem_append.mpr (Or.inl (by simpa [nameSeq] using h1))
    · exact List.mem_append.mpr (Or.inr (by simpa [nameSeq] using h2))
  have hinj : Function.Injective
      (fun i : Fin (N + 1) => variantName fileName (i.1 + 1)) := by
    intro a b hab
    have := variantName_inj fileName hab
    exact Fin.ext (by omega)
  have hcard : (N + 1) ≤ bad.toFinset.card := by
    have h1 : (Finset.univ.image
        (fun i : Fin (N + 1) => variantName fileName (i.1 + 1))).card
        = N + 1 := by
      rw [Finset.card_image_of_injective _ hinj, Finset.card_univ, Fintype.card_fin]
    have h2 : Finset.univ.image
        (fun i : Fin (N + 1) => variantName fileName (i.1 + 1))
        ⊆ bad.toFinset := by
      intro x hx
      rcases Finset.mem_image.mp hx with ⟨i, _, hi⟩
      rw [List.mem_toFinset, ← hi]
      exact hmem i
    calc N + 1 = _ := h1.symm
    _ ≤ bad.toFinset.card := Finset.card_le_card h2
  have hlen : bad.length = N := by
    rw [hbad, List.length_append, List.length_map, hN]
  have := List.toFinset_card_le bad
  omega

theorem uniqueLoop_finds (disk : List (List Char)) (md : Md) (op : List Char)
    (isDir : Bool) (fileName : List Char) :
    ∀ fuel j, (∃ k, j ≤ k ∧ k < j + fuel ∧
        acceptedB disk md op isDir (nameSeq fileName k) = true) →
      (uniqueLoop disk md op isDir fileName fuel (nameSeq fileName j)
        (j + 1)).isSome = true := by
  intro fuel
  induction fuel with
  | zero =>
    intro j ⟨k, h1, h2, _⟩
    omega
  | succ fuel ih =>
    intro j ⟨k, h1, h2, h3⟩
    rw [uniqueLoop]
    by_cases hc : collidesB disk md op isDir (nameSeq fileName j) = true
    · rw [if_pos hc]
      by_cases hs : sameItemB md op isDir (nameSeq fileName j) = true
      · rw [if_pos hs]; rfl
      · rw [if_neg hs]
        have hkj : k ≠ j := by
          intro hkj
          rw [hkj] at h3
          unfold acceptedB at h3
          rw [hc] at h3
          simp at h3
          exact hs h3
        have hstep : variantName fileName (j + 1) = nameSeq fileName (j + 1) := rfl
        rw [hstep]
        exact ih (j + 1) ⟨k, by omega, by omega, h3⟩
    · rw [if_neg hc]; rfl

theorem uniqueLoop_fuel_sufficient (disk : List (List Char)) (md : Md)
    (op : List Char) (isDir : Bool) (fileName : List Char) :
    (uniqueLoop disk md op isDir fileName (disk.length + md.length + 2)
      fileName 1).isSome = true := by
  rcases exists_accepted disk md op isDir fileName with ⟨k, hk, hacc⟩
  have h0 : nameSeq fileName 0 = fileName := rfl
  rw [← h0]
  exact uniqueLoop_finds disk md op isDir fileName
    (disk.length + md.length + 2) 0 ⟨k, by omega, by omega, hacc⟩

theorem lookupA_insertA_self {β : Type} (k : List Char) (v : β)
    (l : List (List Char × β)) : lookupA k (insertA k v l) = some v := by
  induction l with
  | nil => simp [insertA, lookupA]
  | cons e r ih =>
    by_cases h : e.1 = k
    · simp [insertA, lookupA, h]
    · simp only [insertA, if_neg h, lookupA]
      exact ih

theorem lookupA_insertA_ne {β : Type} {k k' : List Char} (v : β)
    (l : List (List Char × β)) (hne : k' ≠ k) :
    lookupA k' (insertA k v l) = lookupA k' l := by
  induction l with
  | nil =>
    simp only [insertA, lookupA]
    rw [if_neg (fun hc => hne hc.symm)]
  | cons e r ih =>
    by_cases h : e.1 = k
    · simp only [insertA, if_pos h, lookupA]
      rw [if_neg (fun hc => hne hc.symm), if_neg (h ▸ fun hc => hne hc.symm)]
    · simp only [insertA, if_neg h, lookupA]
      by_cases h2 : e.1 = k'
      · rw [if_pos h2, if_pos h2]
      · rw [if_neg h2, if_neg h2]
        exact ih

theorem mem_keys_insertA {β : Type} {x k : List Char} (v : β)
    (l : List (List Char × β))
    (h : x ∈ (insertA k v l).map Prod.fst) :
    x ∈ l.map Prod.fst ∨ x = k := by
  induction l with
  | nil =>
    simp only [insertA, List.map_cons, List.map_nil, List.mem_singleton] at h
    exact Or.inr h
  | cons e r ih =>
    by_cases h2 : e.1 = k
    · simp only [insertA, if_pos h2, List.map_cons, List.mem_cons] at h
      simp only [List.map_cons, List.mem_cons]
      rcases h with h3 | h3
      · exact Or.inr h3
      · exact Or.inl (Or.inr h3)
    · simp only [insertA, if_neg h2, List.map_cons, List.mem_cons] at h
      simp only [List.map_cons, List.mem_cons]
      rcases h with h3 | h3
      · exact Or.inl (Or.inl h3)
      · rcases ih h3 with h4 | h4
        · exact Or.inl (Or.inr h4)
        · exact Or.inr h4

theorem insertA_keys_nodup {β : Type} (k : List Char) (v : β)
    (l : List (List Char × β)) (hnd : (l.map Prod.fst).Nodup) :
    ((insertA k v l).map Prod.fst).Nodup := by
  induction l with
  | nil => simp [insertA]
  | cons e r ih =>
    simp only [List.map_cons, List.nodup_cons] at hnd
    by_cases h : e.1 = k
    · simp only [insertA, if_pos h, List.map_cons, List.nodup_cons]
      exact ⟨by rw [← h]; exact hnd.1, hnd.2⟩
    · simp only [insertA, if_neg h, List.map_cons, List.nodup_cons]
      refine ⟨?_, ih hnd.2⟩
      intro hmem
      rcases mem_keys_insertA v r hmem with h3 | h3
      · exact hnd.1 h3
      · exact h h3

theorem lookupA_eq_none_of_notmem {β : Type} {k : List Char}
    {l : List (List Char × β)} (h : k ∉ l.map Prod.fst) :
    lookupA k l = none := by
  induction l with
  | nil => rfl
  | cons e r ih =>
    simp only [List.map_cons, List.mem_cons, not_or] at h
    simp only [lookupA]
    rw [if_neg (fun hc => h.1 hc.symm)]
    exact ih h.2

theorem lookupA_removeA_self {β : Type} (k : List Char)
    (l : List (List Char × β)) (hnd : (l.map Prod.fst).Nodup) :
    lookupA k (removeA k l) = none := by
  induction l with
  | nil => rfl
  | cons e r ih =>
    simp only [List.map_cons, List.nodup_cons] at hnd
    by_cases h : e.1 = k
    · simp only [removeA, if_pos h]
      exact lookupA_eq_none_of_notmem (h ▸ hnd.1)
    · simp only [removeA, if_neg h, lookupA]
      exact ih hnd.2

theorem dropPre_append (pre rest : List Char) :
    dropPre pre (pre ++ rest) = some rest := by
  induction pre with
  | nil => rfl
  | cons c r ih => simp [dropPre, ih]

theorem parseStringBody_escape (p rest : List Char) :
    parseStringBody (escapeJson p ++ '"' :: rest) = some (p, rest) := by
  induction p with
  | nil => rfl
  | cons c r ih =>
    by_cases h : c = '"' ∨ c = '\\'
    · rw [escapeJson, if_pos h]
      show (match parseStringBody (escapeJson r ++ '"' :: rest) with
            | some (s, rest2) => some (c :: s, rest2)
            | none => none) = some (c :: r, rest)
      rw [ih]
    · rw [escapeJson, if_neg h]
      push_neg at h
      rw [List.cons_append, parseStringBody.eq_def]
      split
      · simp_all
      · simp_all
      · simp_all
      · rename_i heq
        injection heq with h1 h2
        subst h1
        subst h2
        rw [ih]

theorem parseTrashItem_serialize (p : List Char) (d : Bool) :
    parseTrashItem (serializeTrashItem p d) = some (p, d) := by
  have hser : serializeTrashItem p d
      = jsonTag ++ (escapeJson p ++ '"' :: (",\"is_dir\":".data ++
          ((if d then "true".data else "false".data) ++ ['\x7d']))) := by
    unfold serializeTrashItem
    simp only [List.append_assoc]
    rfl
  rw [hser]
  unfold parseTrashItem
  simp only [dropPre_append, parseStringBody_escape]
  cases d with
  | true => rfl
  | false => rfl

theorem startsWithTag_serialize (p : List Char) (d : Bool) :
    startsWithTag (serializeTrashItem p d) = true := by
  unfold startsWithTag serializeTrashItem
  simp only [decide_eq_true_eq, List.append_assoc]
  exact List.prefix_append jsonTag _

theorem insertA_notmem_append {β : Type} (k : List Char) (v : β)
    (l : List (List Char × β)) (h : k ∉ l.map Prod.fst) :
    insertA k v l = l ++ [(k, v)] := by
  induction l with
  | nil => rfl
  | cons e r ih =>
    simp only [List.map_cons, List.mem_cons, not_or] at h
    simp only [insertA, List.cons_append]
    rw [if_neg (by intro hc; exact h.1 hc.symm), ih h.2]

theorem convert_saveMd_roundtrip (exB dirB : List Char → Bool) (md : Md)
    (hnd : (md.map Prod.fst).Nodup) :
    convertMetadataIfNeeded parseTrashItem exB dirB (saveMdWithType md) = md := by
  suffices h : ∀ acc : Md, (acc.map Prod.fst).Nodup →
      (∀ k, k ∈ md.map Prod.fst → k ∉ acc.map Prod.fst) →
      (saveMdWithType md).foldl
        (fun acc kv =>
          if startsWithTag kv.2 then
            match parseTrashItem kv.2 with
            | some pd => insertA kv.1 pd acc
            | none => insertA kv.1 (kv.2, exB kv.2 && dirB kv.2) acc
          else insertA kv.1 (kv.2, exB kv.2 && dirB kv.2) acc)
        acc = acc ++ md by
    have := h [] (by simp) (by simp)
    simpa [convertMetadataIfNeeded] using this
  induction md with
  | nil => intro acc _ _; simp [saveMdWithType]
  | cons e r ih =>
    intro acc hacc hdisj
    simp only [List.map_cons, List.nodup_cons] at hnd
    simp only [saveMdWithType, List.map_cons, List.foldl_cons]
    rw [startsWithTag_serialize, if_pos rfl, parseTrashItem_serialize]
    have hnotin : e.1 ∉ acc.map Prod.fst := hdisj e.1 (by simp)
    show List.foldl _ (insertA e.1 (e.2.1, e.2.2) acc) _ = _
    rw [insertA_notmem_append e.1 (e.2.1, e.2.2) acc hnotin]
    have hsave : saveMdWithType r
        = r.map fun kv => (kv.1, serializeTrashItem kv.2.1 kv.2.2) := rfl
    rw [← hsave]
    have := ih hnd.2 (acc ++ [(e.1, (e.2.1, e.2.2))])
      (by
        simp only [List.map_append, List.nodup_append]
        refine ⟨hacc, by simp, ?_⟩
        intro x hx
        simp only [List.map_cons, List.map_nil, List.mem_singleton]
        intro hc
        subst hc
        exact hnotin hx)
      (by
        intro k hk
        simp only [List.map_append, List.mem_append, not_or]
        constructor
        · exact hdisj k (by simp [hk])
        · simp only [List.map_cons, List.map_nil, List.mem_singleton]
          intro hc
          subst hc
          exact hnd.1 hk)
    rw [this]
    simp

theorem anyKey_eq_none {md : Md} {nm : List Char}
    (h : lookupA nm md = none)
    (q : List Char × List Char × Bool → Bool) :
    (md.any fun e => decide (e.1 = nm) && q e) = false := by
  induction md with
  | nil => rfl
  | cons e r ih =>
    simp only [lookupA] at h
    by_cases hk : e.1 = nm
    · rw [if_pos hk] at h
      exact absurd h (by simp)
    · rw [if_neg hk] at h
      simp only [List.any_cons, decide_eq_true_eq]
      rw [ih h]
      simp [hk]

theorem anyKey_eq_some {md : Md} {nm : List Char} {pd : List Char × Bool}
    (hnd : (md.map Prod.fst).Nodup) (h : lookupA nm md = some pd)
    (q : List Char × List Char × Bool → Bool) :
    (md.any fun e => decide (e.1 = nm) && q e) = q (nm, pd) := by
  induction md with
  | nil => exact absurd h (by simp [lookupA])
  | cons e r ih =>
    simp only [List.map_cons, List.nodup_cons] at hnd
    simp only [lookupA] at h
    by_cases hk : e.1 = nm
    · rw [if_pos hk] at h
      injection h with h2
      have hnone : lookupA nm r = none :=
        lookupA_eq_none_of_notmem (hk ▸ hnd.1)
      simp only [List.any_cons]
      rw [anyKey_eq_none hnone q]
      have he : e = (nm, pd) := by
        obtain ⟨k1, v1⟩ := e
        simp only at hk h2
        rw [hk, h2]
      rw [he]
      simp
    · rw [if_neg hk] at h
      simp only [List.any_cons]
      rw [ih hnd.2 h]
      simp [hk]

theorem convert_body_eq_insert
    (parse : List Char → Option (List Char × Bool))
    (exB dirB : List Char → Bool) (acc : Md) (kv : List Char × List Char) :
    (if startsWithTag kv.2 then
      match parse kv.2 with
      | some pd => insertA kv.1 pd acc
      | none => insertA kv.1 (kv.2, exB kv.2 && dirB kv.2) acc
     else insertA kv.1 (kv.2, exB kv.2 && dirB kv.2) acc)
    = insertA kv.1 (convertValue parse exB dirB kv.2) acc := by
  unfold convertValue
  by_cases h : startsWithTag kv.2
  · rw [if_pos h, if_pos h]
    cases parse kv.2 with
    | some pd => rfl
    | none => rfl
  · rw [if_neg h, if_neg h]

theorem convert_eq_map (parse : List Char → Option (List Char × Bool))
    (exB dirB : List Char → Bool) (old : RawMd)
    (hnd : (old.map Prod.fst).Nodup) :
    convertMetadataIfNeeded parse exB dirB old
      = old.map fun kv => (kv.1, convertValue parse exB dirB kv.2) := by
  suffices h : ∀ acc : Md,
      (∀ k, k ∈ old.map Prod.fst → k ∉ acc.map Prod.fst) →
      old.foldl
        (fun acc kv =>
          if startsWithTag kv.2 then
            match parse kv.2 with
            | some pd => insertA kv.1 pd acc
            | none => insertA kv.1 (kv.2, exB kv.2 && dirB kv.2) acc
          else insertA kv.1 (kv.2, exB kv.2 && dirB kv.2) acc)
        acc
      = acc ++ old.map fun kv => (kv.1, convertValue parse exB dirB kv.2) by
    have := h [] (by simp)
    simpa [convertMetadataIfNeeded] using this
  induction old with
  | nil => intro acc _; simp
  | cons e r ih =>
    intro acc hdisj
    simp only [List.map_cons, List.nodup_cons] at hnd
    simp only [List.foldl_cons, List.map_cons]
    rw [convert_body_eq_insert parse exB dirB acc e,
      insertA_notmem_append e.1 _ acc (hdisj e.1 (by simp))]
    rw [ih hnd.2 (acc ++ [(e.1, convertValue parse exB dirB e.2)])
      (by
        intro k hk
        simp only [List.map_append, List.mem_append, not_or, List.map_cons,
          List.map_nil, List.mem_singleton]
        exact ⟨hdisj k (by simp [hk]), fun hc => hnd.1 (hc ▸ hk)⟩)]
    simp

theorem convert_keys_nodup (parse : List Char → Option (List Char × Bool))
    (exB dirB : List Char → Bool) (old : RawMd) :
    ((convertMetadataIfNeeded parse exB dirB old).map Prod.fst).Nodup := by
  suffices h : ∀ acc : Md, (acc.map Prod.fst).Nodup →
      ((old.foldl
        (fun acc kv =>
          if startsWithTag kv.2 then
            match parse kv.2 with
            | some pd => insertA kv.1 pd acc
            | none => insertA kv.1 (kv.2, exB kv.2 && dirB kv.2) acc
          else insertA kv.1 (kv.2, exB kv.2 && dirB kv.2) acc)
        acc).map Prod.fst).Nodup by
    exact h [] (by simp)
  induction old with
  | nil => intro acc hacc; exact hacc
  | cons e r ih =>
    intro acc hacc
    simp only [List.foldl_cons]
    rw [convert_body_eq_insert parse exB dirB acc e]
    exact ih _ (insertA_keys_nodup e.1 _ acc hacc)

theorem tgz_target_suffix (u : List Char) :
    tarGzSuf <:+ (if tarGzSuf <:+ u then u else withExtTarGz u) := by
  by_cases h : tarGzSuf <:+ u
  · rw [if_pos h]; exact h
  · rw [if_neg h]
    exact List.suffix_append (rustFileStem u) tarGzSuf

theorem foldl_stepView_app_only (ops : List FsOp)
    (h : ∀ op ∈ ops, op = FsOp.appendEntry) (v : MoveView) :
    ops.foldl stepView v = v := by
  induction ops generalizing v with
  | nil => rfl
  | cons o r ih =>
    have ho := h o (by simp)
    subst ho
    simp only [List.foldl_cons]
    exact ih (fun op hm => h op (by simp [hm])) v

theorem tarAppendOps_mem (l : List (List Char × FsNode)) :
    ∀ op ∈ tarAppendOps l, op = FsOp.appendEntry := by
  induction l using tarAppendOps.induct with
  | case1 => intro op h; exact absurd h (by simp [tarAppendOps])
  | case2 _ _ rest ih =>
    intro op h
    simp only [tarAppendOps, List.mem_cons] at h
    rcases h with h | h
    · exact h
    · exact ih op h
  | case3 _ cs rest ih1 ih2 =>
    intro op h
    simp only [tarAppendOps, List.mem_cons, List.mem_append] at h
    rcases h with h | h | h
    · exact h
    · exact ih1 op h
    · exact ih2 op h

theorem removeDiskEntry_frame (s : FsState) (n : List Char) :
    (removeDiskEntry s n).outside = s.outside ∧
    (removeDiskEntry s n).cwd = s.cwd ∧
    (removeDiskEntry s n).rootExists = s.rootExists := by
  unfold removeDiskEntry
  split
  · exact ⟨rfl, rfl, rfl⟩
  · exact ⟨rfl, rfl, rfl⟩

theorem foldl_removeDiskEntry_frame (names : List (List Char)) (s : FsState) :
    (names.foldl removeDiskEntry s).outside = s.outside ∧
    (names.foldl removeDiskEntry s).cwd = s.cwd ∧
    (names.foldl removeDiskEntry s).rootExists = s.rootExists := by
  induction names generalizing s with
  | nil => exact ⟨rfl, rfl, rfl⟩
  | cons n r ih =>
    simp only [List.foldl_cons]
    have h1 := ih (removeDiskEntry s n)
    have h2 := removeDiskEntry_frame s n
    exact ⟨h1.1.trans h2.1, h1.2.1.trans h2.2.1, h1.2.2.trans h2.2.2⟩

theorem foldl_removeDiskEntry_entries (l : List (List Char × FsNode)) :
    ∀ s : FsState, s.entries = l → mdName ∉ l.map Prod.fst →
      (l.map Prod.fst).foldl removeDiskEntry s = { s with entries := [] } := by
  induction l with
  | nil =>
    intro s h _
    obtain ⟨o, re, en, mf, cw⟩ := s
    simp only at h
    subst h
    rfl
  | cons e r ih =>
    intro s h hmd
    simp only [List.map_cons, List.mem_cons, not_or] at hmd
    simp only [List.map_cons, List.foldl_cons]
    have hstep : removeDiskEntry s e.1 = { s with entries := r } := by
      unfold removeDiskEntry
      rw [if_neg (fun hc => hmd.1 hc.symm), h]
      simp [removeA]
    rw [hstep]
    exact ih { s with entries := r } rfl hmd.2

/-! ### The claims -/

/-- C6: in every execution of move — regular file, empty directory, or
non-empty directory — and after every prefix of its write sequence, the item
is still present at its source or the destination artifact has been fully
written: the original is only removed after the archive is finished (or
moved atomically by rename), so no reachable state has the item in neither
place. -/
theorem c6_move_ordering_never_loses_item (kind : MoveKind) (k : Nat) :
    (((movePlan kind).take k).foldl stepView ⟨true, false⟩).sourcePresent = true ∨
    (((movePlan kind).take k).foldl stepView ⟨true, false⟩).destComplete = true := by
  cases kind with
  | regularFile =>
    match k with
    | 0 => left; rfl
    | 1 => left; rfl
    | 2 => left; rfl
    | 3 => left; rfl
    | 4 => right; rfl
    | k + 5 =>
      right
      have h : (movePlan MoveKind.regularFile).take (k + 5)
          = movePlan MoveKind.regularFile :=
        List.take_of_length_le (by simp [movePlan])
      rw [h]
      rfl
  | emptyDir =>
    match k with
    | 0 => left; rfl
    | k + 1 =>
      right
      match k with
      | 0 => rfl
      | k + 1 =>
        have h : (movePlan MoveKind.emptyDir).take (k + 2)
            = movePlan MoveKind.emptyDir :=
          List.take_of_length_le (by simp [movePlan])
        rw [h]
        rfl
  | nonEmptyDir cs =>
    match k with
    | 0 => left; rfl
    | 1 => left; rfl
    | k + 2 =>
      have hplan : movePlan (MoveKind.nonEmptyDir cs)
          = FsOp.createDest :: FsOp.appendEntry ::
            (tarAppendOps cs ++
              [FsOp.finishDest, FsOp.removeSource, FsOp.persistMetadata]) := rfl
      rw [hplan]
      simp only [List.take_succ_cons, List.foldl_cons]
      show (((tarAppendOps cs ++ _).take k).foldl stepView ⟨true, false⟩).sourcePresent = true ∨ _
      by_cases hk : k ≤ (tarAppendOps cs).length
      · left
        rw [List.take_append_of_le_length hk]
        rw [foldl_stepView_app_only _
          (fun op hm => tarAppendOps_mem cs op (List.mem_of_mem_take hm)) _]
      · right
        rw [List.take_append_eq_append_take,
          List.take_of_length_le (by omega),
          List.foldl_append,
          foldl_stepView_app_only _ (tarAppendOps_mem cs) _]
        have : (⟨true, false⟩ : MoveView) = ⟨true, false⟩ := rfl
        rcases hj : k - (tarAppendOps cs).length with _ | _ | _ | j
        · omega
        · rfl
        · rfl
        · have h3 : ([FsOp.finishDest, FsOp.removeSource,
              FsOp.persistMetadata].take (j + 3))
              = [FsOp.finishDest, FsOp.removeSource, FsOp.persistMetadata] :=
            List.take_of_length_le (by simp)
          rw [h3]
          rfl

/-- C2 fails as stated: with the single metadata record
`"a" ↦ ("/p", directory)` and insertion pair `("/p", file)` — same original
path, different type bit, name absent from disk — the claim's collision rule
fires, but the resolver does not treat the candidate as colliding: the loop
is not entered and `"a"` is returned unchanged. -/
theorem c2_counterexample_same_path_diff_type :
    specCollidesB [] [("a".data, ("/p".data, true))] "/p".data false "a".data
      = true ∧
    rejectsB [] [("a".data, ("/p".data, true))] "/p".data false "a".data
      = false ∧
    generateUniqueName [] [("a".data, ("/p".data, true))] "/p".data false
      "a".data = "a".data :=
  ⟨rfl, rfl, rfl⟩

/-- C2 amended: the resolver moves past a candidate exactly when — no
metadata record under the name: the name exists on disk; a record with a
different original path: always; a record with the same original path and
the same type bit: never (the name is reused, even if present on disk); a
record with the same original path but a different type bit: only when the
name exists on disk (not, as claimed, unconditionally). -/
theorem c2_amended_collision_rule (disk : List (List Char)) (md : Md)
    (op : List Char) (isDir : Bool) (nm : List Char)
    (hnd : (md.map Prod.fst).Nodup) :
    rejectsB disk md op isDir nm = true ↔
      (match lookupA nm md with
      | none => nm ∈ disk
      | some pd =>
        if pd.1 = op ∧ pd.2 = isDir then False
        else if pd.1 = op then nm ∈ disk
        else True) := by
  unfold rejectsB collidesB sameItemB
  cases hl : lookupA nm md with
  | none =>
    rw [anyKey_eq_none hl (fun e => decide (e.2.2 = isDir) || decide (¬ e.2.1 = op)),
      anyKey_eq_none hl (fun e => decide (e.2.2 = isDir) && decide (e.2.1 = op))]
    simp
  | some pd =>
    rw [anyKey_eq_some hnd hl (fun e => decide (e.2.2 = isDir) || decide (¬ e.2.1 = op)),
      anyKey_eq_some hnd hl (fun e => decide (e.2.2 = isDir) && decide (e.2.1 = op))]
    by_cases hp : pd.1 = op
    · by_cases hd : pd.2 = isDir
      · simp [hp, hd]
      · simp [hp, hd]
    · simp [hp]

/-- Witness for C2's amended rule at a concrete input: record
`("a" ↦ ("/p", dir))`, inserting `("/p", file)`, disk holding only `"x"` —
the candidate `"a"` is not rejected. -/
theorem c2_amended_collision_rule_witness :
    (([("a".data, ("/p".data, true))] : Md).map Prod.fst).Nodup ∧
    (rejectsB ["x".data] [("a".data, ("/p".data, true))] "/p".data false
        "a".data = true ↔
      (match lookupA "a".data ([("a".data, ("/p".data, true))] : Md) with
      | none => "a".data ∈ ["x".data]
      | some pd =>
        if pd.1 = "/p".data ∧ pd.2 = false then False
        else if pd.1 = "/p".data then "a".data ∈ ["x".data]
        else True)) :=
  ⟨by decide,
    c2_amended_collision_rule ["x".data] [("a".data, ("/p".data, true))]
      "/p".data false "a".data (by decide)⟩

/-- C10: for every set of disk names, metadata mapping and candidate, the
unique-name loop terminates within its fuel (it returns a name rather than
exhausting `disk.length + md.length + 2` steps), and the numbered variants
at two distinct counter values are distinct names. -/
theorem c10_loop_terminates_and_variants_distinct (disk : List (List Char))
    (md : Md) (op : List Char) (isDir : Bool) (fileName : List Char) :
    (uniqueLoop disk md op isDir fileName (disk.length + md.length + 2)
      fileName 1).isSome = true ∧
    ∀ m n : Nat, m ≠ n →
      variantName fileName m ≠ variantName fileName n :=
  ⟨uniqueLoop_fuel_sufficient disk md op isDir fileName,
    fun _ _ hmn heq => hmn (variantName_inj fileName heq)⟩

/-- Witness for C10 at a concrete input: candidate `"a"`, empty trash and
metadata; counters 1 and 2 give distinct variants. -/
theorem c10_loop_terminates_witness :
    (uniqueLoop [] [] [] false "a".data 2 "a".data 1).isSome = true ∧
    variantName "a".data 1 ≠ variantName "a".data 2 :=
  ⟨(c10_loop_terminates_and_variants_distinct [] [] [] false "a".data).1,
    (c10_loop_terminates_and_variants_distinct [] [] [] false "a".data).2
      1 2 (by decide)⟩

/-- C7: migration is total and value-directed — for every parse function,
probe functions and raw mapping with `HashMap`-unique keys: the converted
mapping has exactly one entry per raw entry, in order (it never fails); a
value recognized as a structured record (the `{"path":"` tag and a
successful parse, trash.rs:241-243) is used as-is; any other value becomes a
bare path whose type bit is `exists && is_directory`; and a path absent from
the filesystem resolves to `is_directory = false`. -/
theorem c7_migrate_total_value_rule
    (parse : List Char → Option (List Char × Bool))
    (exB dirB : List Char → Bool) (old : RawMd)
    (hnd : (old.map Prod.fst).Nodup) :
    convertMetadataIfNeeded parse exB dirB old
      = (old.map fun kv => (kv.1, convertValue parse exB dirB kv.2)) ∧
    (∀ v pd, startsWithTag v = true → parse v = some pd →
      convertValue parse exB dirB v = pd) ∧
    (∀ v, startsWithTag v = false ∨ parse v = none →
      convertValue parse exB dirB v = (v, exB v && dirB v)) ∧
    (∀ v, exB v = false → (startsWithTag v = false ∨ parse v = none) →
      convertValue parse exB dirB v = (v, false)) := by
  have hbare : ∀ v, startsWithTag v = false ∨ parse v = none →
      convertValue parse exB dirB v = (v, exB v && dirB v) := by
    intro v h
    unfold convertValue
    rcases h with h | h
    · rw [if_neg (by simp [h])]
    · by_cases ht : startsWithTag v = true
      · rw [if_pos ht, h]
      · rw [if_neg ht]
  refine ⟨convert_eq_map parse exB dirB old hnd, ?_, hbare, ?_⟩
  · intro v pd h1 h2
    unfold convertValue
    rw [if_pos h1, h2]
  · intro v hex h
    rw [hbare v h, hex]
    simp

/-- Witness for C7 at a concrete input: one legacy bare-path entry, a probe
that reports the path absent. -/
theorem c7_migrate_total_value_rule_witness :
    (([("k".data, "/q".data)] : RawMd).map Prod.fst).Nodup ∧
    convertMetadataIfNeeded parseTrashItem (fun _ => false) (fun _ => false)
      [("k".data, "/q".data)]
      = [("k".data, ("/q".data, false))] := by
  refine ⟨by decide, ?_⟩
  have h := (c7_migrate_total_value_rule parseTrashItem (fun _ => false)
    (fun _ => false) [("k".data, "/q".data)] (by decide)).1
  rw [h]
  rfl

/-- C9: serializing a typed mapping to the persisted string format
(`save_metadata_with_type`) and migrating the result back
(`convert_metadata_if_needed`) is the identity, for every filesystem probe:
each canonical serialization carries the tag and parses, so the probe is
never consulted. -/
theorem c9_save_then_migrate_roundtrip (md : Md)
    (hnd : (md.map Prod.fst).Nodup) (exB dirB : List Char → Bool) :
    convertMetadataIfNeeded parseTrashItem exB dirB (saveMdWithType md) = md :=
  convert_saveMd_roundtrip exB dirB md hnd

/-- Witness for C9 at a concrete mapping, with a probe that would report the
path as an existing directory — the stored `false` type bit survives, showing
the probe is not consulted. -/
theorem c9_save_then_migrate_roundtrip_witness :
    (([("n.tar.gz".data, ("/a/n.txt".data, false))] : Md).map Prod.fst).Nodup ∧
    convertMetadataIfNeeded parseTrashItem (fun _ => true) (fun _ => true)
      (saveMdWithType [("n.tar.gz".data, ("/a/n.txt".data, false))])
      = [("n.tar.gz".data, ("/a/n.txt".data, false))] :=
  ⟨by decide,
    c9_save_then_migrate_roundtrip [("n.tar.gz".data, ("/a/n.txt".data, false))]
      (by decide) (fun _ => true) (fun _ => true)⟩

/-- C5 fails as stated when the trash root is missing (a state the claim
explicitly includes): listing creates the trash root directory — a
filesystem mutation. -/
theorem c5_counterexample_missing_root_mutates :
    noRootState.rootExists = false ∧
    (showTrashContents noRootState).1.rootExists = true ∧
    (showTrashContents noRootState).1 ≠ noRootState := by
  refine ⟨rfl, rfl, fun hc => ?_⟩
  have h := congrArg FsState.rootExists hc
  rw [show (showTrashContents noRootState).1.rootExists = true from rfl,
    show noRootState.rootExists = false from rfl] at h
  exact Bool.noConfusion h

/-- C5 amended: when the trash root exists, list leaves the state entirely
unchanged (it only reads); when the trash root is missing, list mutates
exactly by creating the trash root directory. -/
theorem c5_amended_list_frame (s : FsState) :
    (s.rootExists = true → (showTrashContents s).1 = s) ∧
    (s.rootExists = false →
      (showTrashContents s).1 = { s with rootExists := true }) := by
  constructor
  · intro h
    unfold showTrashContents
    rw [if_pos h]
  · intro h
    unfold showTrashContents
    rw [if_neg (by simp [h])]

/-- Witness for C5's amended frame rule: listing an existing trash root
leaves the state unchanged. -/
theorem c5_amended_list_frame_witness :
    twoNotesState.rootExists = true ∧
    (showTrashContents twoNotesState).1 = twoNotesState :=
  ⟨rfl, (c5_amended_list_frame twoNotesState).1 rfl⟩

/-- C8 fails as stated for a missing trash root (one of the claim's "every
trash-root state"s): empty changes nothing there, so afterwards the trash
root still does not exist, contradicting "the trash root directory still
exists". -/
theorem c8_counterexample_missing_root :
    noRootState.rootExists = false ∧
    emptyTrash noRootState = noRootState ∧
    (emptyTrash noRootState).rootExists = false :=
  ⟨rfl, rfl, rfl⟩

/-- C8 amended: when the trash root exists, empty removes every entry under
it one at a time, independent of metadata and including the metadata file,
and afterwards the root still exists, holds no entries, and nothing outside
the trash root changed; when the root is missing, the operation changes
nothing (the root is not created). -/
theorem c8_amended_empty_sweeps_all (s : FsState)
    (hmd : mdName ∉ s.entries.map Prod.fst) :
    (s.rootExists = true →
      (emptyTrash s).entries = [] ∧ (emptyTrash s).mdFile = none ∧
      (emptyTrash s).rootExists = true ∧
      (emptyTrash s).outside = s.outside ∧ (emptyTrash s).cwd = s.cwd) ∧
    (s.rootExists = false → emptyTrash s = s) := by
  constructor
  · intro h
    have hsplit : emptyTrash s
        = (if s.mdFile.isSome then [mdName] else []).foldl removeDiskEntry
            { s with entries := [] } := by
      unfold emptyTrash
      rw [if_pos h]
      show (s.entries.map Prod.fst ++
        (if s.mdFile.isSome then [mdName] else [])).foldl removeDiskEntry s = _
      rw [List.foldl_append, foldl_removeDiskEntry_entries s.entries s rfl hmd]
    cases hm : s.mdFile with
    | none =>
      rw [hsplit, hm]
      simp [h]
    | some raw =>
      rw [hsplit, hm]
      simp [removeDiskEntry, h]
  · intro h
    unfold emptyTrash
    rw [if_neg (by simp [h])]

/-- Witness for C8's amended sweep: emptying a concrete one-entry trash with
a metadata file leaves an existing, empty root. -/
theorem c8_amended_empty_sweeps_all_witness :
    (mdName ∉ (twoNotesState.entries.map Prod.fst)) ∧
    twoNotesState.rootExists = true ∧
    (emptyTrash twoNotesState).entries = [] ∧
    (emptyTrash twoNotesState).mdFile = none ∧
    (emptyTrash twoNotesState).rootExists = true :=
  ⟨by decide, rfl,
    ((c8_amended_empty_sweeps_all twoNotesState (by decide)).1 rfl).1,
    ((c8_amended_empty_sweeps_all twoNotesState (by decide)).1 rfl).2.1,
    ((c8_amended_empty_sweeps_all twoNotesState (by decide)).1 rfl).2.2.1⟩

/-- C1 (the failing execution): moving `/a/note.txt` and then `/b/note.txt`
— two regular files with the same base name and different original paths,
into an initially empty trash — stores BOTH under the single on-disk name
`note.tar.gz`: the uniqueness check runs on the candidate `note.txt`, but
the archive is created at `with_extension("tar.gz")`, whose result was never
checked and collides, so `File::create` truncates the first entry.
Afterwards a single trash entry remains, holding only the second file's
bytes, and the surviving metadata record points at `/b/note.txt`; the first
file's content is unrecoverable, refuting distinct, independently restorable
entries. -/
theorem c1_second_move_overwrites_first :
    (moveToTrash "/a/note.txt".data twoNotesState).out
      = Except.ok (MoveMsg.movedFile "note.tar.gz".data) ∧
    (moveToTrash "/b/note.txt".data
        (moveToTrash "/a/note.txt".data twoNotesState).st).out
      = Except.ok (MoveMsg.movedFile "note.tar.gz".data) ∧
    ((moveToTrash "/b/note.txt".data
        (moveToTrash "/a/note.txt".data twoNotesState).st).st.entries.map
          Prod.fst)
      = ["note.tar.gz".data] ∧
    lookupA "note.tar.gz".data
      (moveToTrash "/b/note.txt".data
        (moveToTrash "/a/note.txt".data twoNotesState).st).st.entries
      = some (FsNode.file (FileBytes.targz
          [("note.txt".data, some (FileBytes.raw [2]))])) :=
  ⟨rfl, rfl, rfl, rfl⟩

/-- C4 (the failing execution): a batch `move` of a missing path followed by
an existing one aborts with a hard `NotFound` error — `fs::canonicalize`
fails before the friendly "not found" message is reachable, and the `?` in
the CLI loop propagates it — so the remaining path is never processed: the
existing file stays outside the trash and no trash entry or metadata is
written. -/
theorem c4_missing_path_aborts_batch :
    (runMoveBatch ["/a/gone.txt".data, "/b/real.txt".data] oneRealState).out
      = Except.error TrsErr.notFound ∧
    (runMoveBatch ["/a/gone.txt".data, "/b/real.txt".data] oneRealState).st.outside
      = oneRealState.outside ∧
    (runMoveBatch ["/a/gone.txt".data, "/b/real.txt".data] oneRealState).st.entries
      = [] ∧
    (runMoveBatch ["/a/gone.txt".data, "/b/real.txt".data] oneRealState).st.mdFile
      = none :=
  ⟨rfl, rfl, rfl, rfl⟩

/-- Characterization of `move_to_trash` on a regular file: either the
archive target name is occupied by a directory and `File::create` fails, or
the move succeeds, producing `movedState`. -/
theorem moveToTrash_file_eq (s : FsState) (p : List Char) (b : FileBytes)
    (md : Md) (u tgz : List Char)
    (hfile : lookupA p s.outside = some (FsNode.file b))
    (hmd : md = convertMd { s with rootExists := true }
      (loadMdRaw { s with rootExists := true }))
    (hu : u = generateUniqueName (diskNames { s with rootExists := true }) md p
      false (baseNameOf p))
    (htgz : tgz = if tarGzSuf <:+ u then u else withExtTarGz u) :
    moveToTrash p s =
      match lookupA tgz s.entries with
      | some (FsNode.dir _) =>
        ⟨{ s with rootExists := true }, Except.error TrsErr.ioError⟩
      | _ =>
        ⟨movedState s p tgz b md, Except.ok (MoveMsg.movedFile tgz)⟩ := by
  subst htgz
  subst hu
  subst hmd
  unfold moveToTrash
  dsimp only
  rw [show lookupA p ({ s with rootExists := true } : FsState).outside
    = some (FsNode.file b) from hfile]
  rfl

/-- Characterization of `restore_from_trash` on a `.tar.gz` trash entry that
is a single-file archive with a file-typed metadata record: the first (only)
entry is unpacked to the recorded original path, the trash entry is removed,
and the record is dropped from the metadata. -/
theorem restore_targz_file_eq (s0 : FsState) (nm fileName : List Char)
    (b : FileBytes) (mdc : Md) (p : List Char)
    (hmd : convertMd s0 (loadMdRaw s0) = mdc)
    (hlook : lookupA nm mdc = some (p, false))
    (hent : lookupA nm s0.entries
      = some (FsNode.file (FileBytes.targz [(fileName, some b)])))
    (hsuf : tarGzSuf <:+ nm) :
    restoreFromTrash nm s0 =
      ⟨{ outside := insertA p (FsNode.file b) s0.outside,
         rootExists := s0.rootExists,
         entries := removeA nm s0.entries,
         mdFile := some (saveMdWithType (removeA nm mdc)),
         cwd := s0.cwd }, Except.ok ()⟩ := by
  unfold restoreFromTrash
  simp only [hmd, hlook, hent]
  rw [if_pos hsuf, if_neg (by simp)]
  rfl

/-- Restoring the trash name written by a file move reproduces the file's
bytes at its original path and removes the trash entry. -/
theorem c3_after_move (s : FsState) (p : List Char) (b : FileBytes)
    (md : Md) (tgz : List Char)
    (hnd : (s.entries.map Prod.fst).Nodup)
    (hmdh : md = convertMd { s with rootExists := true }
      (loadMdRaw { s with rootExists := true }))
    (hsuf : tarGzSuf <:+ tgz) :
    (restoreFromTrash tgz (movedState s p tgz b md)).out = Except.ok () ∧
    lookupA p (restoreFromTrash tgz (movedState s p tgz b md)).st.outside
      = some (FsNode.file b) ∧
    lookupA tgz (restoreFromTrash tgz (movedState s p tgz b md)).st.entries
      = none := by
  have hnd2 : ((insertA tgz (p, false) md).map Prod.fst).Nodup := by
    apply insertA_keys_nodup
    rw [hmdh]
    exact convert_keys_nodup _ _ _ _
  have hmd2 : convertMd (movedState s p tgz b md)
      (loadMdRaw (movedState s p tgz b md)) = insertA tgz (p, false) md :=
    convert_saveMd_roundtrip _ _ _ hnd2
  have hres := restore_targz_file_eq _ tgz (baseNameOf p) b
    (insertA tgz (p, false) md) p hmd2
    (lookupA_insertA_self _ _ _) (lookupA_insertA_self _ _ _) hsuf
  rw [hres]
  refine ⟨rfl, ?_, ?_⟩
  · exact lookupA_insertA_self p _ _
  · exact lookupA_removeA_self tgz _ (insertA_keys_nodup tgz _ s.entries hnd)

/-- C3: the move/restore round trip on a regular file — whenever `move`
succeeds on a regular file and reports trash name `n`, restoring `n`
succeeds, reproduces the file's exact byte content at its exact original
absolute path, and deletes the trash entry (the modelled tar+gzip pipeline
is the identity on the single archived file's content and destination). -/
theorem c3_file_roundtrip (s : FsState) (p : List Char) (b : FileBytes)
    (n : List Char)
    (hnd : (s.entries.map Prod.fst).Nodup)
    (hfile : lookupA p s.outside = some (FsNode.file b))
    (hmv : (moveToTrash p s).out = Except.ok (MoveMsg.movedFile n)) :
    (restoreFromTrash n (moveToTrash p s).st).out = Except.ok () ∧
    lookupA p (restoreFromTrash n (moveToTrash p s).st).st.outside
      = some (FsNode.file b) ∧
    lookupA n (restoreFromTrash n (moveToTrash p s).st).st.entries = none := by
  set md := convertMd { s with rootExists := true }
    (loadMdRaw { s with rootExists := true }) with hmdh
  set u := generateUniqueName (diskNames { s with rootExists := true }) md p
    false (baseNameOf p) with huh
  set tgz := (if tarGzSuf <:+ u then u else withExtTarGz u) with htgzh
  have hsuf : tarGzSuf <:+ tgz := by
    rw [htgzh]
    exact tgz_target_suffix u
  have heq := moveToTrash_file_eq s p b md u tgz hfile hmdh huh htgzh
  rw [heq] at hmv ⊢
  cases hl : lookupA tgz s.entries with
  | none =>
    rw [hl] at hmv
    have hmv2 : Except.ok (MoveMsg.movedFile tgz)
        = Except.ok (MoveMsg.movedFile n) := hmv
    injection hmv2 with h1
    injection h1 with h2
    subst h2
    exact c3_after_move s p b md tgz hnd hmdh hsuf
  | some node =>
    cases node with
    | file bs2 =>
      rw [hl] at hmv
      have hmv2 : Except.ok (MoveMsg.movedFile tgz)
          = Except.ok (MoveMsg.movedFile n) := hmv
      injection hmv2 with h1
      injection h1 with h2
      subst h2
      exact c3_after_move s p b md tgz hnd hmdh hsuf
    | dir cs =>
      rw [hl] at hmv
      have hmv2 : (Except.error TrsErr.ioError : Except TrsErr MoveMsg)
          = Except.ok (MoveMsg.movedFile n) := hmv
      exact Except.noConfusion hmv2


/-- Witness for C3 at a concrete input: `/a/note.txt` with bytes `[1]` is
moved (stored as `note.tar.gz`) and restored back. -/
theorem c3_file_roundtrip_witness :
    (twoNotesState.entries.map Prod.fst).Nodup ∧
    lookupA "/a/note.txt".data twoNotesState.outside
      = some (FsNode.file (FileBytes.raw [1])) ∧
    (moveToTrash "/a/note.txt".data twoNotesState).out
      = Except.ok (MoveMsg.movedFile "note.tar.gz".data) ∧
    ((restoreFromTrash "note.tar.gz".data
        (moveToTrash "/a/note.txt".data twoNotesState).st).out = Except.ok () ∧
      lookupA "/a/note.txt".data
        (restoreFromTrash "note.tar.gz".data
          (moveToTrash "/a/note.txt".data twoNotesState).st).st.outside
        = some (FsNode.file (FileBytes.raw [1])) ∧
      lookupA "note.tar.gz".data
        (restoreFromTrash "note.tar.gz".data
          (moveToTrash "/a/note.txt".data twoNotesState).st).st.entries
        = none) :=
  ⟨by decide, rfl, rfl,
    c3_file_roundtrip twoNotesState "/a/note.txt".data (FileBytes.raw [1])
      "note.tar.gz".data (by decide) rfl rfl⟩

end Trs
